import Mathlib

/-!
Shallow embedding of the BlackStars football-analytics pipeline
(`src/processor.py`, `src/clustering.py`, `config.py`,
`scripts/run_ghana_analysis.py`) and proofs about it.

A pandas DataFrame is modelled column-oriented: a list of
(column-name, column) pairs, a column being a list of cells in row order.
A numeric cell holds `Option ℚ` (`none` models NaN / a missing value);
floating-point arithmetic is idealised as exact rational arithmetic.
-/

namespace BlackStars

/-- A table cell: a string, or a (possibly missing, i.e. NaN) number. -/
inductive Cell where
  | str : String → Cell
  | num : Option ℚ → Cell
deriving DecidableEq

/-- A column is the list of its cells, in row order. -/
abbrev Col := List Cell

/-- A DataFrame: named columns, all of equal length in well-formed frames. -/
structure Frame where
  cols : List (String × Col)
deriving DecidableEq

/-- Look a column up by name (first match, as pandas column labels are unique). -/
def lookupCol : List (String × Col) → String → Option Col
  | [], _ => none
  | (n, v) :: rest, c => if n = c then some v else lookupCol rest c

/-- `col in df.columns`. -/
def Frame.hasCol (f : Frame) (c : String) : Bool :=
  (lookupCol f.cols c).isSome

/-- Column of `f` named `c`, empty when absent (absence never occurs in the
uses below: every mapped column comes from the frame itself). -/
def Frame.colD (f : Frame) (c : String) : Col :=
  (lookupCol f.cols c).getD []

/-- `df[c] = vals`: overwrite the column when present, else append it. -/
def setAssoc : List (String × Col) → String → Col → List (String × Col)
  | [], c, v => [(c, v)]
  | (n, w) :: rest, c, v =>
      if n = c then (n, v) :: rest else (n, w) :: setAssoc rest c v

def Frame.setCol (f : Frame) (c : String) (v : Col) : Frame :=
  ⟨setAssoc f.cols c v⟩

/-- Numeric view of a cell: `astype(float)`; a string cell carries no number. -/
def cellNum : Cell → Option ℚ
  | Cell.num o => o
  | Cell.str _ => none

/-- Numeric view of a whole column. -/
def Frame.numCol (f : Frame) (c : String) : List (Option ℚ) :=
  (f.colD c).map cellNum

/-- Number of rows (length of the first column; 0 for an empty frame). -/
def Frame.nRows (f : Frame) : ℕ :=
  match f.cols with
  | [] => 0
  | (_, v) :: _ => v.length

/-- Keep the rows of a column selected by a boolean mask (`df[mask]`). -/
def maskCol (m : List Bool) (v : Col) : Col :=
  (v.zip m).filterMap (fun p => if p.2 then some p.1 else none)

/-- `df[mask]`: apply a row mask to every column. -/
def Frame.filterRows (f : Frame) (m : List Bool) : Frame :=
  ⟨f.cols.map (fun p => (p.1, maskCol m p.2))⟩

/-- Boolean list-prefix test. -/
def prefB : List Char → List Char → Bool
  | [], _ => true
  | _ :: _, [] => false
  | a :: as, b :: bs => a = b && prefB as bs

/-- Boolean list-infix test: `needle` occurs contiguously in `hay`. -/
def infB (needle : List Char) : List Char → Bool
  | [] => needle.isEmpty
  | b :: bs => prefB needle (b :: bs) || infB needle bs

/-- Python's `needle in hay` on strings: substring containment. -/
def hasSub (hay needle : String) : Bool :=
  infB needle.data hay.data

/-- `str.lower()` (ASCII case folding, as all names involved are ASCII-cased). -/
def lowerStr (s : String) : String :=
  ⟨s.data.map Char.toLower⟩

/-! ## Column resolution (`processor.identify_columns`) -/

/-- The resolved column mapping: canonical field name → actual column label
(`col_mapping` dict of `identify_columns`; an absent key is `none`). -/
structure ColMapping where
  player : Option String := none
  team : Option String := none
  position : Option String := none
  minutes : Option String := none
  goals : Option String := none
  assists : Option String := none
  xg : Option String := none
  npxg : Option String := none
  xag : Option String := none
deriving DecidableEq

/-- Alias patterns of `identify_columns`, field by field. -/
def playerAliases : List String := ["player", "Player", "name", "Name"]
def teamAliases : List String := ["team", "Team", "squad", "Squad"]
def positionAliases : List String := ["pos", "Pos", "position", "Position"]
def minutesAliases : List String := ["min", "Min", "minutes", "Minutes", "90s"]
def goalsAliases : List String := ["gls", "Gls", "goals", "Goals"]
def assistsAliases : List String := ["ast", "Ast", "assists", "Assists"]
def xgAliases : List String := ["xg", "xG", "expected_goals"]
def npxgAliases : List String := ["npxg", "npxG", "np_xg"]
def xagAliases : List String := ["xag", "xAG", "xa", "xA"]

/-- Does lowercase `col` contain the lowercase of some alias?  This is the
inner loop of `identify_columns`: `if name.lower() in col_str: ...; break`. -/
def matchesAny (names : List String) (col : String) : Bool :=
  names.any (fun n => hasSub (lowerStr col) (lowerStr n))

/-- Resolution of one canonical field in `identify_columns`: the outer loop
runs over the frame's columns in order and stops at the first column that
contains any alias (so the winner is the first matching COLUMN). -/
def resolveKey (cols : List String) (names : List String) : Option String :=
  cols.find? (matchesAny names)

/-- `identify_columns`, applied to the list of column labels. -/
def identify_columns (cols : List String) : ColMapping where
  player := resolveKey cols playerAliases
  team := resolveKey cols teamAliases
  position := resolveKey cols positionAliases
  minutes := resolveKey cols minutesAliases
  goals := resolveKey cols goalsAliases
  assists := resolveKey cols assistsAliases
  xg := resolveKey cols xgAliases
  npxg := resolveKey cols npxgAliases
  xag := resolveKey cols xagAliases

/-- Resolution as the SPEC words it ("scan the alias list in priority order;
for each alias, scan actual columns for substring containment; first alias
that hits wins"), for comparison with `resolveKey`. -/
def resolveKeySpecOrder (cols : List String) (names : List String) : Option String :=
  (names.filterMap
    (fun n => cols.find? (fun col => hasSub (lowerStr col) (lowerStr n)))).head?

/-! ## Row filters (`processor.filter_forwards`, `filter_minimum_minutes`) -/

/-- `str(cell).upper()` contains one of FW/LW/RW/ST/CF (the regex alternation
of `filter_forwards`); a NaN cell matches nothing (`na=False`), and the string
form of a number never contains those letter tokens. -/
def posCellMatches (c : Cell) : Bool :=
  match c with
  | Cell.str s =>
      ["FW", "LW", "RW", "ST", "CF"].any
        (fun t => hasSub ⟨s.data.map Char.toUpper⟩ t)
  | Cell.num _ => false

/-- `filter_forwards`: keep rows whose position cell matches; with no resolved
position column the frame passes through unchanged. -/
def filter_forwards (f : Frame) (m : ColMapping) : Frame :=
  match m.position with
  | none => f
  | some pc => f.filterRows ((f.colD pc).map posCellMatches)

/-- `MIN_MINUTES_PLAYED` from `config.py`. -/
def MIN_MINUTES_PLAYED : ℚ := 450

/-- `filter_minimum_minutes`: keep rows whose minutes value is at least the
threshold (threshold/90 when the resolved column is expressed in 90s); a NaN
comparison is false; with no resolved minutes column the frame is unchanged. -/
def filter_minimum_minutes (f : Frame) (m : ColMapping) : Frame :=
  match m.minutes with
  | none => f
  | some mc =>
      let thresh : ℚ :=
        if hasSub (lowerStr mc) "90" then MIN_MINUTES_PLAYED / 90
        else MIN_MINUTES_PLAYED
      f.filterRows ((f.numCol mc).map
        (fun o => match o with
          | some q => decide (thresh ≤ q)
          | none => false))

/-! ## Deduplication (`processor.deduplicate_players`) -/

/-- Keep-first mask of `drop_duplicates(..., keep='first')`: a row is kept
iff its key was not seen at any earlier row. -/
def keepFirstMask (seen : List (Cell × Cell)) : List (Cell × Cell) → List Bool
  | [] => []
  | k :: ks => (decide (k ∉ seen)) :: keepFirstMask (k :: seen) ks

/-- `deduplicate_players`: resolve the player/team columns (preferring an
actual column whose lowercase name is exactly `player` / `squad`, falling back
to the mapping, then to the literal defaults) and drop rows whose
(player, team) key already occurred, keeping the first occurrence. -/
def deduplicate_players (f : Frame) (m : ColMapping) : Frame :=
  let names := f.cols.map Prod.fst
  let pc := ((names.find? (fun c => lowerStr c = "player")).getD
    (m.player.getD "Player"))
  let tc := ((names.find? (fun c => lowerStr c = "squad")).getD
    (m.team.getD "Squad"))
  f.filterRows (keepFirstMask [] ((f.colD pc).zip (f.colD tc)))

/-! ## Per-90 conversion (`processor.normalize_per_90`) -/

/-- Elementwise division of pandas series with NaN propagation: the result is
missing when either operand is missing.  The denominator series has already
had its zeros replaced by NaN (`.replace(0, np.nan)`), so a zero denominator
never reaches the division. -/
def divOpt : Option ℚ → Option ℚ → Option ℚ
  | some a, some b => some (a / b)
  | _, _ => none

/-- `.replace(0, np.nan)` on a numeric series. -/
def replaceZeroNan (l : List (Option ℚ)) : List (Option ℚ) :=
  l.map (fun o => o.bind (fun q => if q = 0 then none else some q))

/-- The `90s_played` series of `normalize_per_90`: the minutes column as-is
when its label contains "90", else divided by 90. -/
def ninetiesOf (f : Frame) (mc : String) : List (Option ℚ) :=
  if hasSub (lowerStr mc) "90" then f.numCol mc
  else (f.numCol mc).map (Option.map (fun q => q / 90))

/-- One iteration of the `for stat in counting_stats` loop: when `stat` is in
the mapping and its column is in the frame, set `<stat>_per90` to the stat
column divided by the zero-replaced `90s_played` series. -/
def per90Step (denom : List (Option ℚ)) (stat : String) (oc : Option String)
    (f : Frame) : Frame :=
  match oc with
  | none => f
  | some c =>
      if f.hasCol c then
        f.setCol (stat ++ "_per90")
          ((List.zipWith divOpt (f.numCol c) denom).map Cell.num)
      else f

/-- `normalize_per_90`: store `90s_played`, then derive the five per-90
columns in the source's loop order (innermost step first). -/
def normalize_per_90 (f : Frame) (m : ColMapping) : Frame :=
  match m.minutes with
  | none => f
  | some mc =>
      per90Step (replaceZeroNan (ninetiesOf f mc)) "xag" m.xag
        (per90Step (replaceZeroNan (ninetiesOf f mc)) "npxg" m.npxg
          (per90Step (replaceZeroNan (ninetiesOf f mc)) "xg" m.xg
            (per90Step (replaceZeroNan (ninetiesOf f mc)) "assists" m.assists
              (per90Step (replaceZeroNan (ninetiesOf f mc)) "goals" m.goals
                (f.setCol "90s_played" ((ninetiesOf f mc).map Cell.num))))))

/-! ## Min-max scaling (`processor.normalize_features`) -/

/-- `.fillna(0)` on a numeric series. -/
def fillna0 (l : List (Option ℚ)) : List ℚ :=
  l.map (fun o => o.getD 0)

def colMin : List ℚ → ℚ
  | [] => 0
  | x :: xs => xs.foldl min x

def colMax : List ℚ → ℚ
  | [] => 0
  | x :: xs => xs.foldl max x

/-- `MinMaxScaler.fit_transform` on one column: `(v - min) / (max - min)`,
with a zero range handled as scale 1 (sklearn's `_handle_zeros_in_scale`),
so a constant column maps to all zeros. -/
def minmaxScale (xs : List ℚ) : List ℚ :=
  let mn := colMin xs
  let mx := colMax xs
  xs.map (fun v => if mx = mn then 0 else (v - mn) / (mx - mn))

/-- Min-max scaling of one cell column after `fillna(0)`: every output cell
is a present number. -/
def scaleCol (v : Col) : Col :=
  (minmaxScale (fillna0 (v.map cellNum))).map (fun q => Cell.num (some q))

/-- The column loop of `normalize_features`: scale each listed column in
turn (the `MinMaxScaler` fits each column independently, so the joint
`fit_transform` over `df[existing_cols]` is this per-column loop). -/
def scaleFold (f : Frame) (l : List String) : Frame :=
  l.foldl (fun acc c => acc.setCol c (scaleCol (acc.colD c))) f

/-- `normalize_features`: scale, independently, each listed feature column
that exists in the frame (missing values imputed to 0 before the fit). -/
def normalize_features (f : Frame) (feature_cols : List String) : Frame :=
  scaleFold f (feature_cols.filter (fun c => f.hasCol c))

/-! ## Metric inversion (`processor.invert_negative_metrics`) -/

/-- `1 - series`: NaN stays NaN; string cells never occur in the inverted
columns (they are scaled numeric columns) and are modelled as unchanged. -/
def invertCell : Cell → Cell
  | Cell.num o => Cell.num (o.map (fun q => 1 - q))
  | Cell.str s => Cell.str s

/-- `invert_negative_metrics`: replace each listed, existing column by
`1 - column`. -/
def invert_negative_metrics (f : Frame) (negative_cols : List String) : Frame :=
  negative_cols.foldl
    (fun acc c =>
      if acc.hasCol c then acc.setCol c ((acc.colD c).map invertCell) else acc)
    f

/-! ## The `process_data` pipeline (`processor.process_data`) -/

/-- The feature-column list of `process_data`. -/
def feature_cols : List String :=
  ["goals_per90", "assists_per90", "xg_per90", "npxg_per90", "xag_per90"]

/-- The in-memory table transformation of `process_data` (between loading the
raw CSVs and writing `forwards_processed.csv`): identify columns, filter
forwards, filter minimum minutes, per-90 conversion, min-max normalization.
The source calls no deduplication step here. -/
def process_data_table (f : Frame) : Frame :=
  let m := identify_columns (f.cols.map Prod.fst)
  let f1 := filter_forwards f m
  let f2 := filter_minimum_minutes f1 m
  let f3 := normalize_per_90 f2 m
  normalize_features f3 feature_cols

/-! ## Cluster-count search (`clustering.find_optimal_clusters`, `config.py`) -/

/-- `N_CLUSTERS_RANGE = range(4, 10)` from `config.py`: candidates 4..9. -/
def N_CLUSTERS_RANGE : List ℕ := [4, 5, 6, 7, 8, 9]

/-- `np.argmax` accumulator: keeps the FIRST index attaining the maximum
(a later element replaces the best only when strictly greater). -/
def argmaxAux (bi : ℕ) (bv : ℚ) (i : ℕ) : List ℚ → ℕ
  | [] => bi
  | x :: xs => if bv < x then argmaxAux i x (i + 1) xs else argmaxAux bi bv (i + 1) xs

/-- `np.argmax` over a list of scores (0 on an empty list, unreached here). -/
def argmaxIdx : List ℚ → ℕ
  | [] => 0
  | x :: xs => argmaxAux 0 x 1 xs

/-- Value addressed by an `argmaxAux` result: the running best `bv` at index
`bi`, or the element of `xs` at offset `r - i` (used to specify `argmaxAux`). -/
def argVal (bi : ℕ) (bv : ℚ) (i : ℕ) (xs : List ℚ) (r : ℕ) : ℚ :=
  if r = bi then bv else xs.getD (r - i) 0

/-- `find_optimal_clusters`, with the silhouette scoring abstracted as a
function `sil` of the candidate k: fitting `KMeans(n_clusters=k,
random_state=42, n_init=10)` and calling `silhouette_score` is a fixed-seed,
deterministic external-library computation, so for a fixed feature matrix it
is one function of k.  The source collects `sil k` for each k in
`N_CLUSTERS_RANGE` and returns `list(N_CLUSTERS_RANGE)[np.argmax(scores)]`. -/
def find_optimal_clusters (sil : ℕ → ℚ) : ℕ :=
  (N_CLUSTERS_RANGE.get? (argmaxIdx (N_CLUSTERS_RANGE.map sil))).getD 0

/-! ## Cluster naming (`clustering.suggest_cluster_name`) -/

/-- Names of the top-3 ranked traits (`[t[0] for t in traits[:3]]`). -/
def topNames (traits : List (String × ℚ)) : List String :=
  (traits.take 3).map Prod.fst

/-- z-scores of the top-3 ranked traits (`[t[1]["z_score"] for t in traits[:3]]`). -/
def topZs (traits : List (String × ℚ)) : List ℚ :=
  (traits.take 3).map Prod.snd

/-- `any(z > 0.5 for z in trait_zs)`. -/
def zFires (traits : List (String × ℚ)) : Bool :=
  (topZs traits).any (fun z => decide ((1 : ℚ) / 2 < z))

def goalKw (t : String) : Bool := hasSub t "goal" || hasSub t "xg"
def assistKw (t : String) : Bool := hasSub t "assist" || hasSub t "xag" || hasSub t "key"
def carryKw (t : String) : Bool := hasSub t "carry" || hasSub t "progress"
def aerialKw (t : String) : Bool := hasSub t "aerial"

/-- `suggest_cluster_name`: evaluate the four keyword rules in order; a rule
fires when some top-3 trait name contains one of its keywords AND some top-3
z-score exceeds 0.5; otherwise fall through to "Hybrid Forward". -/
def suggest_cluster_name (traits : List (String × ℚ)) : String :=
  if (topNames traits).any goalKw && zFires traits then "Goal Poacher"
  else if (topNames traits).any assistKw && zFires traits then "Creative Playmaker"
  else if (topNames traits).any carryKw && zFires traits then "Ball Carrier"
  else if (topNames traits).any aerialKw && zFires traits then "Target Man"
  else "Hybrid Forward"

/-! ## Roster matching (`run_ghana_analysis.find_player`) -/

/-- Case-insensitive equality mask of the player column against one search
name (`df[PLAYER_COL].str.lower() == search_name.lower()`). -/
def exactMask (players : List String) (q : String) : List Bool :=
  players.map (fun p => decide (lowerStr p = lowerStr q))

/-- Case-insensitive containment mask
(`df[PLAYER_COL].str.lower().str.contains(search_name.lower())`). -/
def containsMask (players : List String) (q : String) : List Bool :=
  players.map (fun p => hasSub (lowerStr p) (lowerStr q))

/-- Row indices selected by a boolean mask (`df[mask]`, rows in table order). -/
def maskIdxsAux (i : ℕ) : List Bool → List ℕ
  | [] => []
  | b :: bs => if b then i :: maskIdxsAux (i + 1) bs else maskIdxsAux (i + 1) bs

def maskIdxs (m : List Bool) : List ℕ := maskIdxsAux 0 m

/-- `find_player` over the player-name column, returning the indices of the
returned rows.  The loop runs over `[name] + aliases`; for EACH search name it
first tries exact equality and returns all equal rows if any, then tries
substring containment and returns all containing rows if any, and only then
moves on to the next search name.  No name matching at all gives the empty
frame. -/
def find_player (players : List String) : List String → List ℕ
  | [] => []
  | n :: rest =>
      if (exactMask players n).any id then maskIdxs (exactMask players n)
      else if (containsMask players n).any id then maskIdxs (containsMask players n)
      else find_player players rest

/-- Row `j` of the player column equals `n` case-insensitively (the exact
branch of `find_player`). -/
def rowExact (players : List String) (j : ℕ) (n : String) : Prop :=
  ∃ p, players.get? j = some p ∧ lowerStr p = lowerStr n

/-- Row `j` of the player column contains `n` case-insensitively (the
substring branch of `find_player`). -/
def rowSub (players : List String) (j : ℕ) (n : String) : Prop :=
  ∃ p, players.get? j = some p ∧ hasSub (lowerStr p) (lowerStr n) = true

/-- Roster matching as the SPEC words it: first the first row exactly equal
(case-insensitively) to the canonical name or ANY alias; only if no exact
match exists anywhere, the first row containing any of the names. -/
def find_player_spec_order (players : List String) (names : List String) : Option ℕ :=
  match (maskIdxs (players.map
      (fun p => names.any (fun n => decide (lowerStr p = lowerStr n))))).head? with
  | some i => some i
  | none =>
      (maskIdxs (players.map
        (fun p => names.any (fun n => hasSub (lowerStr p) (lowerStr n))))).head?

/-! ## Concrete input tables used by witnesses and counterexamples -/

/-- The five-stat table of the `for stat in counting_stats` loop, paired with
the `ColMapping` projection of each stat, in source order. -/
def countingStats : List (String × (ColMapping → Option String)) :=
  [("goals", fun m => m.goals), ("assists", fun m => m.assists),
   ("xg", fun m => m.xg), ("npxg", fun m => m.npxg), ("xag", fun m => m.xag)]

/-- Column names written by `normalize_per_90` itself. -/
def derivedNames : List String :=
  ["90s_played", "goals_per90", "assists_per90", "xg_per90", "npxg_per90", "xag_per90"]

/-- The nine canonical fields of `identify_columns`, each paired with its
alias list, as (projection, aliases). -/
def fieldTable : List ((ColMapping → Option String) × List String) :=
  [(fun m => m.player, playerAliases), (fun m => m.team, teamAliases),
   (fun m => m.position, positionAliases), (fun m => m.minutes, minutesAliases),
   (fun m => m.goals, goalsAliases), (fun m => m.assists, assistsAliases),
   (fun m => m.xg, xgAliases), (fun m => m.npxg, npxgAliases),
   (fun m => m.xag, xagAliases)]

/-- A raw table with two fully identical rows: same Player "A", same Squad
"T", forward position, 900 minutes, 9 goals. -/
def dupFrame : Frame :=
  ⟨[("Player", [Cell.str "A", Cell.str "A"]),
    ("Squad", [Cell.str "T", Cell.str "T"]),
    ("Pos", [Cell.str "FW", Cell.str "FW"]),
    ("Min", [Cell.num (some 900), Cell.num (some 900)]),
    ("Gls", [Cell.num (some 9), Cell.num (some 9)])]⟩

/-- A raw table whose first row has a missing (NaN) goals value, so its
goals_per90 is missing after per-90 conversion. -/
def nanFrame : Frame :=
  ⟨[("Player", [Cell.str "A", Cell.str "B"]),
    ("Squad", [Cell.str "T", Cell.str "U"]),
    ("Pos", [Cell.str "FW", Cell.str "FW"]),
    ("Min", [Cell.num (some 900), Cell.num (some 900)]),
    ("Gls", [Cell.num none, Cell.num (some 9)])]⟩

/-- The column mapping `identify_columns` resolves on `nanFrame` (and on
`dupFrame`, which has the same column labels). -/
def rawMap : ColMapping := identify_columns (nanFrame.cols.map Prod.fst)

/-- A table with a zero-minutes row (player A: 0 minutes, 2 goals) and a
normal row (player B: 450 minutes, 9 goals). -/
def zmFrame : Frame :=
  ⟨[("Player", [Cell.str "A", Cell.str "B"]),
    ("Min", [Cell.num (some 0), Cell.num (some 450)]),
    ("Gls", [Cell.num (some 2), Cell.num (some 9)])]⟩

/-- A processed table holding only a per-90 column with one missing value. -/
def per90Frame : Frame :=
  ⟨[("goals_per90", [Cell.num none, Cell.num (some 1)])]⟩

/-! ## Helper lemmas: association-list columns -/

theorem lookupCol_setAssoc_self (cs : List (String × Col)) (c : String) (v : Col) :
    lookupCol (setAssoc cs c v) c = some v := by
  induction cs with
  | nil => simp [setAssoc, lookupCol]
  | cons hd tl ih =>
      by_cases h : hd.1 = c
      · simp [setAssoc, lookupCol, h]
      · simp [setAssoc, lookupCol, h, ih]

theorem lookupCol_setAssoc_ne (cs : List (String × Col)) (c d : String) (v : Col)
    (h : d ≠ c) : lookupCol (setAssoc cs c v) d = lookupCol cs d := by
  have hcd : ¬ c = d := fun hh => h hh.symm
  induction cs with
  | nil => simp [setAssoc, lookupCol, hcd]
  | cons hd tl ih =>
      by_cases h1 : hd.1 = c
      · have h2 : ¬ hd.1 = d := by rw [h1]; exact hcd
        cases hd with
        | mk n w =>
            simp only at h1 h2
            simp [setAssoc, lookupCol, h1, h2, hcd]
      · cases hd with
        | mk n w =>
            simp only at h1
            by_cases h2 : n = d
            · simp [setAssoc, lookupCol, h1, h2, h]
            · simp [setAssoc, lookupCol, h1, h2, ih]

theorem setAssoc_map_fst (cs : List (String × Col)) (c : String) (v : Col)
    (h : (lookupCol cs c).isSome = true) :
    (setAssoc cs c v).map Prod.fst = cs.map Prod.fst := by
  induction cs with
  | nil => simp [lookupCol] at h
  | cons hd tl ih =>
      by_cases h1 : hd.1 = c
      · simp [setAssoc, h1]
      · simp only [lookupCol, h1, if_false] at h
        simp [setAssoc, h1, ih h]

theorem lookupCol_isSome_of_mem_fst (cs : List (String × Col)) (c : String)
    (h : c ∈ cs.map Prod.fst) : (lookupCol cs c).isSome = true := by
  induction cs with
  | nil => simp at h
  | cons hd tl ih =>
      by_cases h1 : hd.1 = c
      · simp [lookupCol, h1]
      · simp only [List.map_cons, List.mem_cons] at h
        rcases h with h | h
        · exact absurd h.symm h1
        · simp [lookupCol, h1, ih h]

theorem mem_fst_of_lookupCol_isSome (cs : List (String × Col)) (c : String)
    (h : (lookupCol cs c).isSome = true) : c ∈ cs.map Prod.fst := by
  induction cs with
  | nil => simp [lookupCol] at h
  | cons hd tl ih =>
      by_cases h1 : hd.1 = c
      · simp [h1]
      · simp only [lookupCol, h1, if_false] at h
        simp [ih h]

/-! ## Helper lemmas: list indexing -/

theorem get?_zipWith_some {α β γ : Type} (g : α → β → γ) :
    ∀ (l1 : List α) (l2 : List β) (i : ℕ) (x : α) (y : β),
      l1.get? i = some x → l2.get? i = some y →
      (List.zipWith g l1 l2).get? i = some (g x y)
  | [], _, i, _, _, h1, _ => by simp at h1
  | _ :: _, [], i, _, _, _, h2 => by simp at h2
  | a :: as, b :: bs, 0, x, y, h1, h2 => by
      simp at h1 h2
      simp [List.zipWith, h1, h2]
  | a :: as, b :: bs, i + 1, x, y, h1, h2 => by
      simpa using get?_zipWith_some g as bs i x y (by simpa using h1) (by simpa using h2)

theorem find?_first {α : Type} (p : α → Bool) :
    ∀ (l : List α) (a : α), l.find? p = some a →
      p a = true ∧ ∃ i, l.get? i = some a ∧
        ∀ j b, j < i → l.get? j = some b → p b = false
  | [], a, h => by simp at h
  | x :: xs, a, h => by
      by_cases hx : p x = true
      · rw [List.find?_cons_of_pos _ hx] at h
        have hxa : x = a := Option.some.inj h
        subst hxa
        refine ⟨hx, 0, by simp, ?_⟩
        intro j b hj
        omega
      · rw [List.find?_cons_of_neg _ hx] at h
        obtain ⟨hpa, i, hi, hmin⟩ := find?_first p xs a h
        refine ⟨hpa, i + 1, by simpa using hi, ?_⟩
        intro j b hj hb
        match j with
        | 0 =>
            simp only [List.get?_cons_zero, Option.some.injEq] at hb
            subst hb
            exact eq_false_of_ne_true hx
        | j + 1 =>
            exact hmin j b (by omega) (by simpa using hb)

/-! ## Helper lemmas: frame-level wrappers -/

theorem lookup_setCol_self (f : Frame) (c : String) (v : Col) :
    lookupCol (f.setCol c v).cols c = some v :=
  lookupCol_setAssoc_self f.cols c v

theorem lookup_setCol_ne (f : Frame) (a c : String) (v : Col) (h : c ≠ a) :
    lookupCol (f.setCol a v).cols c = lookupCol f.cols c :=
  lookupCol_setAssoc_ne f.cols a c v h

theorem colD_eq_of_lookup (f : Frame) (c : String) (v : Col)
    (h : lookupCol f.cols c = some v) : f.colD c = v := by
  unfold Frame.colD
  rw [h]
  rfl

theorem colD_setCol_ne (f : Frame) (a c : String) (v : Col) (h : c ≠ a) :
    (f.setCol a v).colD c = f.colD c := by
  unfold Frame.colD
  rw [lookup_setCol_ne f a c v h]

theorem hasCol_iff_lookup (f : Frame) (c : String) :
    f.hasCol c = true ↔ ∃ v, lookupCol f.cols c = some v :=
  Option.isSome_iff_exists

theorem lookup_none_of_not_hasCol (f : Frame) (c : String)
    (h : ¬ f.hasCol c = true) : lookupCol f.cols c = none := by
  cases hl : lookupCol f.cols c with
  | none => rfl
  | some v => exact absurd ((hasCol_iff_lookup f c).mpr ⟨v, hl⟩) h

/-! ## Helper lemmas: the `normalize_features` column loop -/

theorem scaleCol_length (v : Col) : (scaleCol v).length = v.length := by
  simp [scaleCol, minmaxScale, fillna0]

theorem scaleFold_lookup_not_mem :
    ∀ (l : List String) (f : Frame) (c : String), c ∉ l →
      lookupCol (scaleFold f l).cols c = lookupCol f.cols c
  | [], _, _, _ => rfl
  | a :: rest, f, c, h => by
      have hac : c ≠ a := fun hh => h (hh ▸ List.mem_cons_self a rest)
      have step : scaleFold f (a :: rest)
          = scaleFold (f.setCol a (scaleCol (f.colD a))) rest := rfl
      rw [step, scaleFold_lookup_not_mem rest _ c (fun hc => h (List.mem_cons_of_mem a hc))]
      exact lookupCol_setAssoc_ne f.cols a c _ hac

theorem scaleFold_lookup_mem :
    ∀ (l : List String) (f : Frame) (c : String), c ∈ l → l.Nodup →
      lookupCol (scaleFold f l).cols c = some (scaleCol (f.colD c))
  | [], _, c, h, _ => absurd h (List.not_mem_nil c)
  | a :: rest, f, c, h, hnd => by
      have step : scaleFold f (a :: rest)
          = scaleFold (f.setCol a (scaleCol (f.colD a))) rest := rfl
      by_cases hac : c = a
      · subst hac
        have hnotin : c ∉ rest := (List.nodup_cons.mp hnd).1
        rw [step, scaleFold_lookup_not_mem rest _ c hnotin]
        exact lookupCol_setAssoc_self f.cols c _
      · have hcrest : c ∈ rest := by
          rcases List.mem_cons.mp h with h1 | h1
          · exact absurd h1 hac
          · exact h1
        rw [step, scaleFold_lookup_mem rest _ c hcrest (List.nodup_cons.mp hnd).2,
          colD_setCol_ne f a c _ hac]

theorem scaleFold_map_fst :
    ∀ (l : List String) (f : Frame), (∀ c ∈ l, c ∈ f.cols.map Prod.fst) →
      (scaleFold f l).cols.map Prod.fst = f.cols.map Prod.fst
  | [], _, _ => rfl
  | a :: rest, f, h => by
      have step : scaleFold f (a :: rest)
          = scaleFold (f.setCol a (scaleCol (f.colD a))) rest := rfl
      have ha : a ∈ f.cols.map Prod.fst := h a (List.mem_cons_self a rest)
      have hfst : (f.setCol a (scaleCol (f.colD a))).cols.map Prod.fst
          = f.cols.map Prod.fst :=
        setAssoc_map_fst f.cols a _ (lookupCol_isSome_of_mem_fst f.cols a ha)
      rw [step, scaleFold_map_fst rest _ (fun c hc => by
        rw [hfst]; exact h c (List.mem_cons_of_mem a hc)), hfst]

theorem scaleFold_length_pres :
    ∀ (l : List String) (f : Frame), (∀ c ∈ l, c ∈ f.cols.map Prod.fst) →
      ∀ (c : String) (w : Col), lookupCol (scaleFold f l).cols c = some w →
        ∃ v, lookupCol f.cols c = some v ∧ w.length = v.length
  | [], _, _, c, w, hw => ⟨w, hw, rfl⟩
  | a :: rest, f, h, c, w, hw => by
      have step : scaleFold f (a :: rest)
          = scaleFold (f.setCol a (scaleCol (f.colD a))) rest := rfl
      have ha : a ∈ f.cols.map Prod.fst := h a (List.mem_cons_self a rest)
      have hfst : (f.setCol a (scaleCol (f.colD a))).cols.map Prod.fst
          = f.cols.map Prod.fst :=
        setAssoc_map_fst f.cols a _ (lookupCol_isSome_of_mem_fst f.cols a ha)
      rw [step] at hw
      obtain ⟨v1, hv1, hlen1⟩ := scaleFold_length_pres rest _
        (fun d hd => by rw [hfst]; exact h d (List.mem_cons_of_mem a hd)) c w hw
      by_cases hac : c = a
      · subst hac
        rw [lookup_setCol_self f c _] at hv1
        obtain ⟨v0, hv0⟩ := Option.isSome_iff_exists.mp
          (lookupCol_isSome_of_mem_fst f.cols c ha)
        refine ⟨v0, hv0, ?_⟩
        have : v1 = scaleCol v0 := by
          rw [← colD_eq_of_lookup f c v0 hv0]
          exact (Option.some.inj hv1).symm
        rw [hlen1, this, scaleCol_length]
      · rw [lookup_setCol_ne f a c _ hac] at hv1
        exact ⟨v1, hv1, hlen1⟩

/-! ## Helper lemmas: metric inversion -/

theorem invertCell_invol (x : Cell) : invertCell (invertCell x) = x := by
  cases x with
  | str s => rfl
  | num o =>
      cases o with
      | none => rfl
      | some q => simp [invertCell]

theorem mapInv_invol (v : Col) : (v.map invertCell).map invertCell = v := by
  rw [List.map_map]
  have h : invertCell ∘ invertCell = id := funext invertCell_invol
  rw [h, List.map_id]

theorem iterate_invol {α : Type} (g : α → α) (hg : ∀ x, g (g x) = x) :
    ∀ (n : ℕ) (x : α), g^[n] (g^[n] x) = x
  | 0, x => rfl
  | n + 1, x => by
      rw [Function.iterate_succ_apply g n x,
        Function.iterate_succ_apply' g n (g^[n] (g x)),
        iterate_invol g hg n (g x), hg]

theorem invM_lookup :
    ∀ (l : List String) (f : Frame) (c : String),
      lookupCol (invert_negative_metrics f l).cols c
        = Option.map (fun v => (fun w : Col => w.map invertCell)^[l.count c] v)
            (lookupCol f.cols c)
  | [], f, c => by
      simp [invert_negative_metrics]
  | a :: rest, f, c => by
      have step : invert_negative_metrics f (a :: rest)
          = invert_negative_metrics
              (if f.hasCol a then f.setCol a ((f.colD a).map invertCell) else f)
              rest := by
        simp [invert_negative_metrics]
      rw [step, invM_lookup rest _ c]
      by_cases hac : c = a
      · subst hac
        by_cases hp : f.hasCol c
        · obtain ⟨v, hv⟩ := (hasCol_iff_lookup f c).mp hp
          rw [if_pos hp, lookup_setCol_self f c _, colD_eq_of_lookup f c v hv, hv,
            List.count_cons_self]
          simp [Function.iterate_succ_apply]
        · rw [if_neg hp, lookup_none_of_not_hasCol f c hp]
          rfl
      · have hca : ¬ a = c := fun hh => hac hh.symm
        have hcnt : (a :: rest).count c = rest.count c := by
          rw [List.count_cons]
          simp [hca]
        rw [hcnt]
        by_cases hp : f.hasCol a
        · rw [if_pos hp, lookup_setCol_ne f a c _ hac]
        · rw [if_neg hp]

/-! ## Claim C8 -/

/-- C8: for every frame and every list of "lower is better" columns, applying
`invert_negative_metrics` twice returns every column (in particular every
already-[0,1]-scaled column) to its original value exactly: the inversion
`v ↦ 1 - v` is an involution in exact arithmetic. -/
theorem claim_C8_inversion_round_trip (f : Frame) (l : List String) (c : String) :
    lookupCol (invert_negative_metrics (invert_negative_metrics f l) l).cols c
      = lookupCol f.cols c := by
  rw [invM_lookup, invM_lookup, Option.map_map]
  have h : ((fun v : Col => (fun w : Col => w.map invertCell)^[l.count c] v)
      ∘ (fun v : Col => (fun w : Col => w.map invertCell)^[l.count c] v)) = id :=
    funext (fun v => iterate_invol _ mapInv_invol (l.count c) v)
  rw [h, Option.map_id]
  rfl

/-! ## Claim C9 -/

/-- C9: when the column mapping resolved no minutes field,
`filter_minimum_minutes` returns the table unchanged (the source only prints
a warning; no row is dropped and no error is raised). -/
theorem claim_C9_no_minutes_filter_unchanged (f : Frame) (m : ColMapping)
    (h : m.minutes = none) : filter_minimum_minutes f m = f := by
  unfold filter_minimum_minutes
  rw [h]

/-- Witness for C9 at a concrete table and the empty mapping. -/
theorem claim_C9_no_minutes_filter_unchanged_witness :
    filter_minimum_minutes dupFrame {} = dupFrame :=
  claim_C9_no_minutes_filter_unchanged dupFrame {} rfl

/-! ## Claim C10 -/

/-- C10: `normalize_features` preserves the list of column labels (so no
column is added or removed and column order is kept), leaves every column not
in the feature list unchanged, and preserves the length of every column (so
the row count is unchanged, and with every non-listed column unchanged
value-for-value, row order is unchanged as well).  Only listed columns that
exist can differ. -/
theorem claim_C10_normalize_features_frame_effect (f : Frame) (l : List String) :
    ((normalize_features f l).cols.map Prod.fst = f.cols.map Prod.fst)
    ∧ (∀ c, c ∉ l → lookupCol (normalize_features f l).cols c = lookupCol f.cols c)
    ∧ (∀ c w, lookupCol (normalize_features f l).cols c = some w →
        ∃ v, lookupCol f.cols c = some v ∧ w.length = v.length) := by
  unfold normalize_features
  refine ⟨?_, ?_, ?_⟩
  · exact scaleFold_map_fst _ f
      (fun c hc => mem_fst_of_lookupCol_isSome f.cols c (List.mem_filter.mp hc).2)
  · intro c hc
    exact scaleFold_lookup_not_mem _ f c (fun hmem => hc (List.mem_filter.mp hmem).1)
  · intro c w hw
    exact scaleFold_length_pres _ f
      (fun d hd => mem_fst_of_lookupCol_isSome f.cols d (List.mem_filter.mp hd).2) c w hw

/-- Witness for C10: on `dupFrame` with the pipeline's feature list, the
"Player" column (not a feature column) is untouched. -/
theorem claim_C10_normalize_features_frame_effect_witness :
    lookupCol (normalize_features dupFrame feature_cols).cols "Player"
      = lookupCol dupFrame.cols "Player" :=
  (claim_C10_normalize_features_frame_effect dupFrame feature_cols).2.1 "Player" (by decide)

/-! ## Claim C2 -/

/-- C2, counterexample: in the pipeline of `process_data` run on `nanFrame`,
player A's goals_per90 is missing right after per-90 conversion (first
conjunct), yet the persisted goals_per90 column holds the hard number 0 for
that row (second conjunct): the missing rate IS rendered as a fabricated 0. -/
theorem claim_C2_counterexample :
    lookupCol (normalize_per_90
        (filter_minimum_minutes (filter_forwards nanFrame rawMap) rawMap)
        rawMap).cols "goals_per90"
      = some [Cell.num none, Cell.num (some (9 / 10))]
    ∧ lookupCol (process_data_table nanFrame).cols "goals_per90"
      = some [Cell.num (some 0), Cell.num (some 1)] := by
  refine ⟨?_, ?_⟩ <;> with_unfolding_all rfl

/-- C2, amended: a missing per90 value is NOT kept missing in the persisted
per90 columns: `normalize_features` replaces each existing feature column by
the min-max scaling of its 0-imputed values, so every persisted cell of such
a column is a present number (the missing entries becoming the scaled image
of the imputation value 0). -/
theorem claim_C2_missing_per90_becomes_number (f : Frame) (l : List String)
    (c : String) (h1 : c ∈ l) (h2 : l.Nodup) (h3 : f.hasCol c = true) :
    lookupCol (normalize_features f l).cols c = some (scaleCol (f.colD c))
    ∧ ∀ x ∈ scaleCol (f.colD c), ∃ q : ℚ, x = Cell.num (some q) := by
  constructor
  · unfold normalize_features
    exact scaleFold_lookup_mem _ f c (List.mem_filter.mpr ⟨h1, h3⟩) (h2.filter _)
  · intro x hx
    obtain ⟨q, hq, hxq⟩ := List.mem_map.mp hx
    exact ⟨q, hxq.symm⟩

/-- Witness for the amended C2 on `per90Frame`. -/
theorem claim_C2_missing_per90_becomes_number_witness :
    lookupCol (normalize_features per90Frame feature_cols).cols "goals_per90"
      = some (scaleCol (per90Frame.colD "goals_per90")) :=
  (claim_C2_missing_per90_becomes_number per90Frame feature_cols "goals_per90"
    (by decide) (by decide) (by decide)).1

/-! ## Claim C4 -/

/-- C4: the `process_data` pipeline never calls `deduplicate_players`.  On
`dupFrame`, whose two rows share the identical (Player, Squad) key (A, T),
the pipeline output still contains both rows (first three conjuncts), while
the (never invoked) `deduplicate_players` helper would have kept exactly one
(final conjunct). -/
theorem claim_C4_pipeline_skips_deduplication :
    lookupCol (process_data_table dupFrame).cols "Player"
      = some [Cell.str "A", Cell.str "A"]
    ∧ lookupCol (process_data_table dupFrame).cols "Squad"
      = some [Cell.str "T", Cell.str "T"]
    ∧ (process_data_table dupFrame).nRows = 2
    ∧ (deduplicate_players dupFrame rawMap).nRows = 1 := by
  refine ⟨?_, ?_, ?_, ?_⟩ <;> with_unfolding_all rfl

/-! ## Claim C3 -/

/-- C3, counterexample: with actual columns ["nickname", "player"], the code
resolves the player field to "nickname" (the first COLUMN containing any
alias — here via the alias "name"), whereas alias-priority-order resolution
as the claim words it would resolve to "player" (the first ALIAS, "player",
hits the column "player"). -/
theorem claim_C3_counterexample :
    (identify_columns ["nickname", "player"]).player = some "nickname"
    ∧ resolveKeySpecOrder ["nickname", "player"] playerAliases = some "player" := by
  refine ⟨?_, ?_⟩ <;> decide

/-- C3, amended: for each canonical field, `identify_columns` scans the
ACTUAL COLUMNS in table order and, per column, the alias list; the resolved
column is the first column (by position) containing any alias
case-insensitively, so resolution is determined by column position, not by
alias priority; when no column matches, the field is absent. -/
theorem claim_C3_resolution_by_column_position (cols : List String)
    (sel : ColMapping → Option String) (al : List String)
    (hmem : (sel, al) ∈ fieldTable) :
    sel (identify_columns cols) = resolveKey cols al
    ∧ (∀ c, resolveKey cols al = some c →
        matchesAny al c = true
        ∧ ∃ i, cols.get? i = some c
            ∧ ∀ j cj, j < i → cols.get? j = some cj → matchesAny al cj = false)
    ∧ (resolveKey cols al = none → ∀ c ∈ cols, matchesAny al c = false) := by
  refine ⟨?_, ?_, ?_⟩
  · simp only [fieldTable, List.mem_cons, List.not_mem_nil, or_false] at hmem
    rcases hmem with h | h | h | h | h | h | h | h | h <;>
      (rw [Prod.ext_iff] at h; obtain ⟨hs, ha⟩ := h; subst hs; subst ha; rfl)
  · intro c hc
    exact find?_first (matchesAny al) cols c hc
  · intro hn c hcmem
    have hall := List.find?_eq_none.mp hn c hcmem
    exact eq_false_of_ne_true hall

/-- Witness for the amended C3 on the two-column counterexample table. -/
theorem claim_C3_resolution_by_column_position_witness :
    (identify_columns ["nickname", "player"]).player
      = resolveKey ["nickname", "player"] playerAliases
    ∧ matchesAny playerAliases "nickname" = true := by
  have h := claim_C3_resolution_by_column_position ["nickname", "player"]
    (fun m => m.player) playerAliases
    (by unfold fieldTable; exact List.mem_cons_self _ _)
  exact ⟨h.1, (h.2.1 "nickname" (by decide)).1⟩

/-! ## Claim C7 -/

/-- C7: for every ranked trait list, `suggest_cluster_name` returns a
non-empty archetype string drawn from the five fixed names; the four keyword
rules are evaluated first-match-wins, a rule firing exactly when some top-3
trait name matches its keyword set AND some top-3 z-score exceeds 0.5; when
no rule fires the result is "Hybrid Forward" — never an error. -/
theorem claim_C7_naming_totality (traits : List (String × ℚ)) :
    suggest_cluster_name traits ≠ ""
    ∧ suggest_cluster_name traits ∈
        ["Goal Poacher", "Creative Playmaker", "Ball Carrier", "Target Man",
         "Hybrid Forward"]
    ∧ (((topNames traits).any goalKw && zFires traits) = true →
        suggest_cluster_name traits = "Goal Poacher")
    ∧ (((topNames traits).any goalKw && zFires traits) = false →
        ((topNames traits).any assistKw && zFires traits) = true →
        suggest_cluster_name traits = "Creative Playmaker")
    ∧ (((topNames traits).any goalKw && zFires traits) = false →
        ((topNames traits).any assistKw && zFires traits) = false →
        ((topNames traits).any carryKw && zFires traits) = true →
        suggest_cluster_name traits = "Ball Carrier")
    ∧ (((topNames traits).any goalKw && zFires traits) = false →
        ((topNames traits).any assistKw && zFires traits) = false →
        ((topNames traits).any carryKw && zFires traits) = false →
        ((topNames traits).any aerialKw && zFires traits) = true →
        suggest_cluster_name traits = "Target Man")
    ∧ (((topNames traits).any goalKw && zFires traits) = false →
        ((topNames traits).any assistKw && zFires traits) = false →
        ((topNames traits).any carryKw && zFires traits) = false →
        ((topNames traits).any aerialKw && zFires traits) = false →
        suggest_cluster_name traits = "Hybrid Forward") := by
  cases hb1 : ((topNames traits).any goalKw && zFires traits) <;>
  cases hb2 : ((topNames traits).any assistKw && zFires traits) <;>
  cases hb3 : ((topNames traits).any carryKw && zFires traits) <;>
  cases hb4 : ((topNames traits).any aerialKw && zFires traits) <;>
    simp [suggest_cluster_name, hb1, hb2, hb3, hb4]

/-- Witness for C7: on a trait list matching no keyword, the fallback fires. -/
theorem claim_C7_naming_totality_witness :
    suggest_cluster_name [("foo", (10 : ℚ))] = "Hybrid Forward" :=
  (claim_C7_naming_totality [("foo", (10 : ℚ))]).2.2.2.2.2.2
    (by decide) (by decide) (by decide) (by decide)

/-! ## Helper lemmas: per-90 conversion -/

theorem normalize_per_90_some (f : Frame) (m : ColMapping) (mc : String)
    (h : m.minutes = some mc) :
    normalize_per_90 f m
      = per90Step (replaceZeroNan (ninetiesOf f mc)) "xag" m.xag
          (per90Step (replaceZeroNan (ninetiesOf f mc)) "npxg" m.npxg
            (per90Step (replaceZeroNan (ninetiesOf f mc)) "xg" m.xg
              (per90Step (replaceZeroNan (ninetiesOf f mc)) "assists" m.assists
                (per90Step (replaceZeroNan (ninetiesOf f mc)) "goals" m.goals
                  (f.setCol "90s_played" ((ninetiesOf f mc).map Cell.num)))))) := by
  unfold normalize_per_90
  rw [h]

theorem lookup_per90Step_other (denom : List (Option ℚ)) (stat : String)
    (oc : Option String) (g : Frame) (d : String) (h : d ≠ stat ++ "_per90") :
    lookupCol (per90Step denom stat oc g).cols d = lookupCol g.cols d := by
  cases oc with
  | none => rfl
  | some c =>
      simp only [per90Step]
      by_cases hp : g.hasCol c
      · rw [if_pos hp, lookup_setCol_ne g _ d _ h]
      · rw [if_neg hp]

theorem numCol_setCol_ne (f : Frame) (a d : String) (v : Col) (h : d ≠ a) :
    (f.setCol a v).numCol d = f.numCol d := by
  unfold Frame.numCol
  rw [colD_setCol_ne f a d v h]

theorem numCol_per90Step_other (denom : List (Option ℚ)) (stat : String)
    (oc : Option String) (g : Frame) (d : String) (h : d ≠ stat ++ "_per90") :
    (per90Step denom stat oc g).numCol d = g.numCol d := by
  unfold Frame.numCol Frame.colD
  rw [lookup_per90Step_other denom stat oc g d h]

theorem hasCol_setCol (f : Frame) (a d : String) (v : Col)
    (h : f.hasCol d = true) : (f.setCol a v).hasCol d = true := by
  by_cases hda : d = a
  · subst hda
    exact (hasCol_iff_lookup _ d).mpr ⟨v, lookup_setCol_self f d v⟩
  · obtain ⟨w, hw⟩ := (hasCol_iff_lookup f d).mp h
    exact (hasCol_iff_lookup _ d).mpr ⟨w, by rw [lookup_setCol_ne f a d v hda]; exact hw⟩

theorem hasCol_per90Step (denom : List (Option ℚ)) (stat : String)
    (oc : Option String) (g : Frame) (d : String) (h : g.hasCol d = true) :
    (per90Step denom stat oc g).hasCol d = true := by
  cases oc with
  | none => exact h
  | some c =>
      simp only [per90Step]
      by_cases hp : g.hasCol c
      · rw [if_pos hp]
        exact hasCol_setCol g _ d _ h
      · rw [if_neg hp]
        exact h

theorem per90Step_self (denom : List (Option ℚ)) (stat : String) (c : String)
    (g : Frame) (hc : g.hasCol c = true) :
    lookupCol (per90Step denom stat (some c) g).cols (stat ++ "_per90")
      = some ((List.zipWith divOpt (g.numCol c) denom).map Cell.num) := by
  simp only [per90Step]
  rw [if_pos hc]
  exact lookup_setCol_self g _ _

theorem divOpt_none_right (o : Option ℚ) : divOpt o none = none := by
  cases o <;> rfl

/-- The per-90 column written for a mapped, present counting stat: the stat
column divided elementwise by the zero-replaced 90s series of the input. -/
theorem np90_lookup (f : Frame) (m : ColMapping) (mc : String) (stat : String)
    (sel : ColMapping → Option String) (c : String)
    (hmem : (stat, sel) ∈ countingStats)
    (hmin : m.minutes = some mc)
    (hsel : sel m = some c)
    (hc : f.hasCol c = true)
    (hder : c ∉ derivedNames) :
    lookupCol (normalize_per_90 f m).cols (stat ++ "_per90")
      = some ((List.zipWith divOpt (f.numCol c)
          (replaceZeroNan (ninetiesOf f mc))).map Cell.num) := by
  have hne : ∀ d, d ∈ derivedNames → c ≠ d :=
    fun d hd hcd => hder (hcd ▸ hd)
  have hne90 : c ≠ "90s_played" := hne _ (by decide)
  have hneg : c ≠ "goals_per90" := hne _ (by decide)
  have hnea : c ≠ "assists_per90" := hne _ (by decide)
  have hnex : c ≠ "xg_per90" := hne _ (by decide)
  have hnen : c ≠ "npxg_per90" := hne _ (by decide)
  have hnexa : c ≠ "xag_per90" := hne _ (by decide)
  rw [normalize_per_90_some f m mc hmin]
  have hc0 : (f.setCol "90s_played" ((ninetiesOf f mc).map Cell.num)).hasCol c
      = true := hasCol_setCol f _ c _ hc
  have hn0 : (f.setCol "90s_played" ((ninetiesOf f mc).map Cell.num)).numCol c
      = f.numCol c := numCol_setCol_ne f _ c _ hne90
  simp only [countingStats, List.mem_cons, List.not_mem_nil, or_false] at hmem
  rcases hmem with h | h | h | h | h <;>
    (rw [Prod.ext_iff] at h; obtain ⟨hstat, hsel2⟩ := h; subst hstat; subst hsel2;
     simp only at hsel)
  · rw [lookup_per90Step_other _ _ _ _ _ (by decide),
      lookup_per90Step_other _ _ _ _ _ (by decide),
      lookup_per90Step_other _ _ _ _ _ (by decide),
      lookup_per90Step_other _ _ _ _ _ (by decide),
      hsel, per90Step_self _ _ _ _ hc0, hn0]
  · rw [lookup_per90Step_other _ _ _ _ _ (by decide),
      lookup_per90Step_other _ _ _ _ _ (by decide),
      lookup_per90Step_other _ _ _ _ _ (by decide),
      hsel, per90Step_self _ _ _ _ (hasCol_per90Step _ _ _ _ _ hc0),
      numCol_per90Step_other _ _ _ _ _ hneg, hn0]
  · rw [lookup_per90Step_other _ _ _ _ _ (by decide),
      lookup_per90Step_other _ _ _ _ _ (by decide),
      hsel, per90Step_self _ _ _ _
        (hasCol_per90Step _ _ _ _ _ (hasCol_per90Step _ _ _ _ _ hc0)),
      numCol_per90Step_other _ _ _ _ _ hnea, numCol_per90Step_other _ _ _ _ _ hneg,
      hn0]
  · rw [lookup_per90Step_other _ _ _ _ _ (by decide),
      hsel, per90Step_self _ _ _ _
        (hasCol_per90Step _ _ _ _ _
          (hasCol_per90Step _ _ _ _ _ (hasCol_per90Step _ _ _ _ _ hc0))),
      numCol_per90Step_other _ _ _ _ _ hnex, numCol_per90Step_other _ _ _ _ _ hnea,
      numCol_per90Step_other _ _ _ _ _ hneg, hn0]
  · rw [hsel, per90Step_self _ _ _ _
        (hasCol_per90Step _ _ _ _ _
          (hasCol_per90Step _ _ _ _ _
            (hasCol_per90Step _ _ _ _ _ (hasCol_per90Step _ _ _ _ _ hc0)))),
      numCol_per90Step_other _ _ _ _ _ hnen, numCol_per90Step_other _ _ _ _ _ hnex,
      numCol_per90Step_other _ _ _ _ _ hnea, numCol_per90Step_other _ _ _ _ _ hneg,
      hn0]

/-! ## Claim C1 -/

/-- C1: for every row and every counting stat resolved by the mapping to a
present column (not itself a derived column), `normalize_per_90` derives
`<stat>_per90 = stat / ninety_minute_periods` exactly when the row's
90-minute-period count p is nonzero, and stores an explicit missing value
(never a zero, never an infinity) when p = 0. -/
theorem claim_C1_per90_division (f : Frame) (m : ColMapping) (mc : String)
    (stat : String) (sel : ColMapping → Option String) (c : String)
    (hmem : (stat, sel) ∈ countingStats)
    (hmin : m.minutes = some mc)
    (hsel : sel m = some c)
    (hc : f.hasCol c = true)
    (hder : c ∉ derivedNames) (i : ℕ) :
    (∀ p : ℚ, (ninetiesOf f mc).get? i = some (some p) → p ≠ 0 →
      ∀ s : ℚ, (f.numCol c).get? i = some (some s) →
        ((normalize_per_90 f m).colD (stat ++ "_per90")).get? i
          = some (Cell.num (some (s / p))))
    ∧ ((ninetiesOf f mc).get? i = some (some 0) →
      ∀ os : Option ℚ, (f.numCol c).get? i = some os →
        ((normalize_per_90 f m).colD (stat ++ "_per90")).get? i
          = some (Cell.num none)) := by
  have hlook := np90_lookup f m mc stat sel c hmem hmin hsel hc hder
  have hcol : (normalize_per_90 f m).colD (stat ++ "_per90")
      = (List.zipWith divOpt (f.numCol c)
          (replaceZeroNan (ninetiesOf f mc))).map Cell.num :=
    colD_eq_of_lookup _ _ _ hlook
  rw [hcol]
  constructor
  · intro p hp hp0 s hs
    have hd : (replaceZeroNan (ninetiesOf f mc)).get? i = some (some p) := by
      unfold replaceZeroNan
      rw [List.get?_map, hp]
      simp [hp0]
    have hz := get?_zipWith_some divOpt (f.numCol c) _ i (some s) (some p) hs hd
    rw [List.get?_map, hz]
    rfl
  · intro hp os hs
    have hd : (replaceZeroNan (ninetiesOf f mc)).get? i = some none := by
      unfold replaceZeroNan
      rw [List.get?_map, hp]
      simp
    have hz := get?_zipWith_some divOpt (f.numCol c) _ i os none hs hd
    rw [List.get?_map, hz, divOpt_none_right]
    rfl

/-- Witness for C1 on `zmFrame`: the zero-minutes row gets a missing
goals_per90, the 450-minutes row gets 9 / 5 (9 goals over 5 ninety-minute
periods). -/
theorem claim_C1_per90_division_witness :
    ((normalize_per_90 zmFrame
        (identify_columns (zmFrame.cols.map Prod.fst))).colD
          ("goals" ++ "_per90")).get? 0 = some (Cell.num none)
    ∧ ((normalize_per_90 zmFrame
        (identify_columns (zmFrame.cols.map Prod.fst))).colD
          ("goals" ++ "_per90")).get? 1 = some (Cell.num (some (9 / 5))) := by
  constructor
  · exact (claim_C1_per90_division zmFrame
      (identify_columns (zmFrame.cols.map Prod.fst)) "Min" "goals"
      (fun m => m.goals) "Gls"
      (by unfold countingStats; exact List.mem_cons_self _ _)
      (by decide) (by decide) (by decide) (by decide) 0).2
      (by with_unfolding_all rfl) (some 2) (by with_unfolding_all rfl)
  · exact (claim_C1_per90_division zmFrame
      (identify_columns (zmFrame.cols.map Prod.fst)) "Min" "goals"
      (fun m => m.goals) "Gls"
      (by unfold countingStats; exact List.mem_cons_self _ _)
      (by decide) (by decide) (by decide) (by decide) 1).1
      5 (by with_unfolding_all rfl) (by norm_num) 9 (by with_unfolding_all rfl)

/-! ## Helper lemmas: masks and roster matching -/

theorem getD_eq_get?_getD {α : Type} (d : α) :
    ∀ (l : List α) (j : ℕ), l.getD j d = (l.get? j).getD d
  | [], 0 => rfl
  | [], _ + 1 => rfl
  | _ :: _, 0 => rfl
  | _ :: l, j + 1 => getD_eq_get?_getD d l j

theorem getD_map_true {α : Type} (g : α → Bool) (l : List α) (j : ℕ) :
    ((l.map g).getD j false = true) ↔ ∃ p, l.get? j = some p ∧ g p = true := by
  rw [getD_eq_get?_getD, List.get?_map]
  cases hg : l.get? j with
  | none => simp
  | some p => simp

theorem any_map_id_false {α : Type} (g : α → Bool) :
    ∀ (l : List α), (l.map g).any id = false →
      ∀ (j : ℕ) (p : α), l.get? j = some p → g p = false
  | [], _, j, p, hp => by simp at hp
  | a :: l, h, 0, p, hp => by
      simp only [List.get?_cons_zero, Option.some.injEq] at hp
      subst hp
      simp only [List.map_cons, List.any_cons, id, Bool.or_eq_false_iff] at h
      exact h.1
  | a :: l, h, j + 1, p, hp => by
      simp only [List.map_cons, List.any_cons, id, Bool.or_eq_false_iff] at h
      exact any_map_id_false g l h.2 j p (by simpa using hp)

theorem maskIdxsAux_head :
    ∀ (m : List Bool) (s i : ℕ), (maskIdxsAux s m).head? = some i →
      ∃ j, i = s + j ∧ m.getD j false = true ∧ ∀ j2 < j, m.getD j2 false = false
  | [], s, i, h => by simp [maskIdxsAux] at h
  | true :: bs, s, i, h => by
      simp only [maskIdxsAux, if_pos, List.head?_cons, Option.some.injEq] at h
      subst h
      exact ⟨0, by omega, rfl, fun j2 hj2 => absurd hj2 (by omega)⟩
  | false :: bs, s, i, h => by
      simp only [maskIdxsAux, if_neg] at h
      obtain ⟨j, hij, hget, hmin⟩ := maskIdxsAux_head bs (s + 1) i h
      refine ⟨j + 1, by omega, by simpa using hget, ?_⟩
      intro j2 hj2
      match j2 with
      | 0 => rfl
      | j2 + 1 => exact hmin j2 (by omega)

/-! ## Claim C6 -/

/-- C6, counterexample: with rows ["AB", "B"], canonical name "A" and alias
"B", the code returns row 0 ("AB", found by substring on "A") although row 1
("B") is an exact match for an alias — the claim's global exact-first order
would return row 1. -/
theorem claim_C6_counterexample :
    find_player ["AB", "B"] ["A", "B"] = [0]
    ∧ find_player_spec_order ["AB", "B"] ["A", "B"] = some 1 := by
  refine ⟨?_, ?_⟩ <;> decide

/-- C6, amended: `find_player` scans the names in order (canonical name
first, then the aliases): the result is determined by the first name that
matches anything, every earlier name matching no row at all (neither exactly
nor by substring); for that winning name an exact match is preferred — the
first returned row is the earliest exactly-equal row, and only when NO row
equals that name is it the earliest row containing it. -/
theorem claim_C6_per_alias_matching (players : List String) :
    ∀ (names : List String) (i : ℕ),
      (find_player players names).head? = some i →
      ∃ pre n post, names = pre ++ n :: post
        ∧ (∀ n2 ∈ pre, (∀ j, ¬ rowExact players j n2) ∧ (∀ j, ¬ rowSub players j n2))
        ∧ ((rowExact players i n ∧ ∀ j < i, ¬ rowExact players j n)
           ∨ ((∀ j, ¬ rowExact players j n)
              ∧ rowSub players i n ∧ ∀ j < i, ¬ rowSub players j n))
  | [], i, h => by simp [find_player] at h
  | n :: rest, i, h => by
      by_cases he : (exactMask players n).any id = true
      · rw [show find_player players (n :: rest) = maskIdxs (exactMask players n)
          from by simp [find_player, he]] at h
        obtain ⟨j, hij, hget, hmin⟩ := maskIdxsAux_head _ 0 i h
        have hij0 : i = j := by omega
        subst hij0
        refine ⟨[], n, rest, rfl, by simp, Or.inl ⟨?_, ?_⟩⟩
        · obtain ⟨p, hp, hgp⟩ := (getD_map_true _ players i).mp hget
          exact ⟨p, hp, of_decide_eq_true hgp⟩
        · intro j2 hj2 hro
          obtain ⟨p, hp, hgp⟩ := hro
          have hj2t : (exactMask players n).getD j2 false = true :=
            (getD_map_true _ players j2).mpr ⟨p, hp, decide_eq_true hgp⟩
          rw [hmin j2 hj2] at hj2t
          exact Bool.false_ne_true hj2t
      · have he0 : (exactMask players n).any id = false := eq_false_of_ne_true he
        have hexnone : ∀ j, ¬ rowExact players j n := by
          intro j hro
          obtain ⟨p, hp, hgp⟩ := hro
          have hf := any_map_id_false _ players he0 j p hp
          rw [decide_eq_true hgp] at hf
          exact Bool.noConfusion hf
        by_cases hc : (containsMask players n).any id = true
        · rw [show find_player players (n :: rest) = maskIdxs (containsMask players n)
            from by simp [find_player, he, hc]] at h
          obtain ⟨j, hij, hget, hmin⟩ := maskIdxsAux_head _ 0 i h
          have hij0 : i = j := by omega
          subst hij0
          refine ⟨[], n, rest, rfl, by simp, Or.inr ⟨hexnone, ?_, ?_⟩⟩
          · obtain ⟨p, hp, hgp⟩ := (getD_map_true _ players i).mp hget
            exact ⟨p, hp, hgp⟩
          · intro j2 hj2 hro
            obtain ⟨p, hp, hgp⟩ := hro
            have hj2t : (containsMask players n).getD j2 false = true :=
              (getD_map_true _ players j2).mpr ⟨p, hp, hgp⟩
            rw [hmin j2 hj2] at hj2t
            exact Bool.false_ne_true hj2t
        · have hc0 : (containsMask players n).any id = false := eq_false_of_ne_true hc
          have hsubnone : ∀ j, ¬ rowSub players j n := by
            intro j hro
            obtain ⟨p, hp, hgp⟩ := hro
            have hf := any_map_id_false _ players hc0 j p hp
            rw [hgp] at hf
            exact Bool.noConfusion hf
          rw [show find_player players (n :: rest) = find_player players rest
            from by simp [find_player, he, hc]] at h
          obtain ⟨pre, n2, post, hsplit, hpre, hbranch⟩ :=
            claim_C6_per_alias_matching players rest i h
          refine ⟨n :: pre, n2, post, by rw [hsplit]; rfl, ?_, hbranch⟩
          intro n3 hn3
          rcases List.mem_cons.mp hn3 with h3 | h3
          · subst h3
            exact ⟨hexnone, hsubnone⟩
          · exact hpre n3 h3

/-- Witness for the amended C6: the spec's concrete Kudus scenario — alias
"Kudus" against a table containing "Mohammed Kudus" matches via the substring
fallback and returns that row (index 1). -/
theorem claim_C6_per_alias_matching_witness :
    ∃ pre n post, (["Kudus"] : List String) = pre ++ n :: post
      ∧ (∀ n2 ∈ pre, (∀ j, ¬ rowExact ["Someone", "Mohammed Kudus"] j n2)
          ∧ (∀ j, ¬ rowSub ["Someone", "Mohammed Kudus"] j n2))
      ∧ ((rowExact ["Someone", "Mohammed Kudus"] 1 n
            ∧ ∀ j < 1, ¬ rowExact ["Someone", "Mohammed Kudus"] j n)
         ∨ ((∀ j, ¬ rowExact ["Someone", "Mohammed Kudus"] j n)
            ∧ rowSub ["Someone", "Mohammed Kudus"] 1 n
            ∧ ∀ j < 1, ¬ rowSub ["Someone", "Mohammed Kudus"] j n)) :=
  claim_C6_per_alias_matching ["Someone", "Mohammed Kudus"] ["Kudus"] 1 (by decide)

/-! ## Helper lemmas: argmax -/

theorem getD_map_lt {α β : Type} (g : α → β) (d : α) (d2 : β) :
    ∀ (l : List α) (j : ℕ), j < l.length → (l.map g).getD j d2 = g (l.getD j d)
  | [], j, h => absurd h (by simp)
  | a :: l, 0, _ => rfl
  | a :: l, j + 1, h => getD_map_lt g d d2 l j (by simpa using h)

theorem get?_eq_getD_of_lt {α : Type} (d : α) :
    ∀ (l : List α) (j : ℕ), j < l.length → l.get? j = some (l.getD j d)
  | [], j, h => absurd h (by simp)
  | a :: l, 0, _ => rfl
  | a :: l, j + 1, h => get?_eq_getD_of_lt d l j (by simpa using h)

theorem argmaxAux_spec :
    ∀ (xs : List ℚ) (bi i : ℕ) (bv : ℚ), bi < i →
      (argmaxAux bi bv i xs = bi
        ∨ (i ≤ argmaxAux bi bv i xs ∧ argmaxAux bi bv i xs - i < xs.length))
      ∧ bv ≤ argVal bi bv i xs (argmaxAux bi bv i xs)
      ∧ (∀ j, j < xs.length → xs.getD j 0 ≤ argVal bi bv i xs (argmaxAux bi bv i xs))
      ∧ (argmaxAux bi bv i xs ≠ bi → bv < argVal bi bv i xs (argmaxAux bi bv i xs))
      ∧ (∀ j, j < xs.length →
          xs.getD j 0 = argVal bi bv i xs (argmaxAux bi bv i xs) →
          argmaxAux bi bv i xs ≤ i + j)
  | [], bi, i, bv, _ => by
      refine ⟨Or.inl rfl, ?_, ?_, ?_, ?_⟩
      · simp [argmaxAux, argVal]
      · intro j hj
        simp at hj
      · intro hne
        exact absurd rfl hne
      · intro j hj
        simp at hj
  | x :: xs, bi, i, bv, hbi => by
      by_cases hx : bv < x
      · have heq : argmaxAux bi bv i (x :: xs) = argmaxAux i x (i + 1) xs := by
          simp [argmaxAux, hx]
        obtain ⟨hA, hB, hC, hD, hE⟩ := argmaxAux_spec xs i (i + 1) x (by omega)
        rw [heq]
        have hrne : argmaxAux i x (i + 1) xs ≠ bi := by
          rcases hA with hA | hA
          · omega
          · omega
        have hval : argVal bi bv i (x :: xs) (argmaxAux i x (i + 1) xs)
            = argVal i x (i + 1) xs (argmaxAux i x (i + 1) xs) := by
          rcases hA with hA | hA
          · rw [hA]
            unfold argVal
            rw [if_neg (by omega : ¬ i = bi), if_pos rfl]
            simp
          · unfold argVal
            rw [if_neg hrne, if_neg (by omega : ¬ argmaxAux i x (i + 1) xs = i)]
            have hsub : argmaxAux i x (i + 1) xs - i
                = (argmaxAux i x (i + 1) xs - (i + 1)) + 1 := by omega
            rw [hsub]
            rfl
        refine ⟨?_, ?_, ?_, ?_, ?_⟩
        · rcases hA with hA | hA
          · right
            constructor
            · omega
            · simp only [List.length_cons]
              omega
          · right
            constructor
            · omega
            · simp only [List.length_cons]
              omega
        · rw [hval]
          exact le_trans (le_of_lt hx) hB
        · intro j hj
          rw [hval]
          match j with
          | 0 => exact hB
          | j + 1 =>
              exact hC j (by simpa using hj)
        · intro _
          rw [hval]
          exact lt_of_lt_of_le hx hB
        · intro j hj hjv
          rw [hval] at hjv
          match j with
          | 0 =>
              by_cases hri : argmaxAux i x (i + 1) xs = i
              · omega
              · exact absurd hjv (ne_of_lt (hD hri))
          | j + 1 =>
              have := hE j (by simpa using hj) hjv
              omega
      · have heq : argmaxAux bi bv i (x :: xs) = argmaxAux bi bv (i + 1) xs := by
          simp [argmaxAux, hx]
        obtain ⟨hA, hB, hC, hD, hE⟩ := argmaxAux_spec xs bi (i + 1) bv (by omega)
        rw [heq]
        have hval : argVal bi bv i (x :: xs) (argmaxAux bi bv (i + 1) xs)
            = argVal bi bv (i + 1) xs (argmaxAux bi bv (i + 1) xs) := by
          rcases hA with hA | hA
          · rw [hA]
            unfold argVal
            rw [if_pos rfl, if_pos rfl]
          · have hrne : ¬ argmaxAux bi bv (i + 1) xs = bi := by omega
            unfold argVal
            rw [if_neg hrne, if_neg hrne]
            have hsub : argmaxAux bi bv (i + 1) xs - i
                = (argmaxAux bi bv (i + 1) xs - (i + 1)) + 1 := by omega
            rw [hsub]
            rfl
        refine ⟨?_, ?_, ?_, ?_, ?_⟩
        · rcases hA with hA | hA
          · exact Or.inl hA
          · right
            constructor
            · omega
            · simp only [List.length_cons]
              omega
        · rw [hval]
          exact hB
        · intro j hj
          rw [hval]
          match j with
          | 0 => exact le_trans (le_of_not_lt hx) hB
          | j + 1 => exact hC j (by simpa using hj)
        · intro hne
          rw [hval]
          exact hD hne
        · intro j hj hjv
          rw [hval] at hjv
          match j with
          | 0 =>
              by_cases hri : argmaxAux bi bv (i + 1) xs = bi
              · omega
              · have hx0 : (x :: xs).getD 0 0 = x := rfl
                rw [hx0] at hjv
                have hlt := hD hri
                rw [← hjv] at hlt
                exact absurd hlt hx
          | j + 1 =>
              have := hE j (by simpa using hj) hjv
              omega

theorem argmaxIdx_spec (x : ℚ) (xs : List ℚ) :
    argmaxIdx (x :: xs) < (x :: xs).length
    ∧ (∀ j, j < (x :: xs).length →
        (x :: xs).getD j 0 ≤ (x :: xs).getD (argmaxIdx (x :: xs)) 0)
    ∧ (∀ j, j < (x :: xs).length →
        (x :: xs).getD j 0 = (x :: xs).getD (argmaxIdx (x :: xs)) 0 →
        argmaxIdx (x :: xs) ≤ j) := by
  have heq : argmaxIdx (x :: xs) = argmaxAux 0 x 1 xs := rfl
  obtain ⟨hA, hB, hC, hD, hE⟩ := argmaxAux_spec xs 0 1 x (by omega)
  have hval : argVal 0 x 1 xs (argmaxAux 0 x 1 xs)
      = (x :: xs).getD (argmaxAux 0 x 1 xs) 0 := by
    rcases hA with hA | hA
    · rw [hA]
      unfold argVal
      rw [if_pos rfl]
      rfl
    · have hrne : ¬ argmaxAux 0 x 1 xs = 0 := by omega
      unfold argVal
      rw [if_neg hrne]
      have hsub : argmaxAux 0 x 1 xs = (argmaxAux 0 x 1 xs - 1) + 1 := by omega
      conv_rhs => rw [hsub]
      rfl
  rw [heq]
  refine ⟨?_, ?_, ?_⟩
  · rcases hA with hA | hA
    · rw [hA]
      simp
    · simp only [List.length_cons]
      omega
  · intro j hj
    rw [← hval]
    match j with
    | 0 => exact hB
    | j + 1 => exact hC j (by simpa using hj)
  · intro j hj hjv
    rw [← hval] at hjv
    match j with
    | 0 =>
        by_cases hri : argmaxAux 0 x 1 xs = 0
        · omega
        · exact absurd hjv (ne_of_lt (hD hri))
    | j + 1 =>
        have := hE j (by simpa using hj) hjv
        omega

/-! ## Claim C5 -/

/-- C5, counterexample: the configured candidate range `range(4, 10)` starts
at 4, not 2 — the candidate k = 2 is never evaluated, and even a silhouette
function maximal at k = 2 yields 4. -/
theorem claim_C5_counterexample :
    N_CLUSTERS_RANGE.head? = some 4
    ∧ N_CLUSTERS_RANGE.contains 2 = false
    ∧ find_optimal_clusters (fun k => if k = 2 then 100 else 0) = 4 := by
  refine ⟨rfl, rfl, ?_⟩
  with_unfolding_all rfl

/-- C5, amended: the cluster-count search evaluates each candidate k in the
configured inclusive range 4..9 (`range(4, 10)`, minimum candidate 4) and
returns the candidate whose silhouette score is maximal, ties broken by
the smallest such k (`np.argmax` keeps the first maximum). -/
theorem claim_C5_selection_rule (sil : ℕ → ℚ) :
    find_optimal_clusters sil ∈ N_CLUSTERS_RANGE
    ∧ (∀ j ∈ N_CLUSTERS_RANGE, sil j ≤ sil (find_optimal_clusters sil))
    ∧ (∀ j ∈ N_CLUSTERS_RANGE, sil j = sil (find_optimal_clusters sil) →
        find_optimal_clusters sil ≤ j) := by
  have hs : N_CLUSTERS_RANGE.map sil
      = sil 4 :: [sil 5, sil 6, sil 7, sil 8, sil 9] := rfl
  obtain ⟨hlt, hle, hfirst⟩ := argmaxIdx_spec (sil 4) [sil 5, sil 6, sil 7, sil 8, sil 9]
  have hr6 : argmaxIdx (sil 4 :: [sil 5, sil 6, sil 7, sil 8, sil 9]) < 6 := by
    simpa using hlt
  have hrange : ∀ j, j < 6 → N_CLUSTERS_RANGE.getD j 0 = 4 + j := by decide
  have hget : N_CLUSTERS_RANGE.get?
        (argmaxIdx (sil 4 :: [sil 5, sil 6, sil 7, sil 8, sil 9]))
      = some (N_CLUSTERS_RANGE.getD
        (argmaxIdx (sil 4 :: [sil 5, sil 6, sil 7, sil 8, sil 9])) 0) :=
    get?_eq_getD_of_lt 0 N_CLUSTERS_RANGE _ (by simpa [N_CLUSTERS_RANGE] using hr6)
  have hk : find_optimal_clusters sil
      = 4 + argmaxIdx (sil 4 :: [sil 5, sil 6, sil 7, sil 8, sil 9]) := by
    show (N_CLUSTERS_RANGE.get? (argmaxIdx (N_CLUSTERS_RANGE.map sil))).getD 0 = _
    rw [hs, hget, hrange _ hr6]
    rfl
  have hscore : ∀ j, j < 6 →
      (sil 4 :: [sil 5, sil 6, sil 7, sil 8, sil 9]).getD j 0 = sil (4 + j) := by
    intro j hj
    rw [← hs, getD_map_lt sil 0 0 N_CLUSTERS_RANGE j
      (by simpa [N_CLUSTERS_RANGE] using hj), hrange j hj]
  have hmax : ∀ n, n < 6 → sil (4 + n) ≤ sil (find_optimal_clusters sil) := by
    intro n hn
    have h1 := hle n (by simpa using hn)
    rw [hscore n hn, hscore _ hr6] at h1
    rw [hk]
    exact h1
  have hmin : ∀ n, n < 6 → sil (4 + n) = sil (find_optimal_clusters sil) →
      find_optimal_clusters sil ≤ 4 + n := by
    intro n hn heqv
    have h1 := hfirst n (by simpa using hn)
      (by rw [hscore n hn, hscore _ hr6, ← hk]; exact heqv)
    rw [hk]
    omega
  have hidx : ∀ j ∈ N_CLUSTERS_RANGE, ∃ n, n < 6 ∧ j = 4 + n := by decide
  have hmem : ∀ n, n < 6 → 4 + n ∈ N_CLUSTERS_RANGE := by decide
  refine ⟨?_, ?_, ?_⟩
  · rw [hk]
    exact hmem _ hr6
  · intro j hj
    obtain ⟨n, hn, rfl⟩ := hidx j hj
    exact hmax n hn
  · intro j hj
    obtain ⟨n, hn, rfl⟩ := hidx j hj
    exact hmin n hn

/-- Witness for the amended C5: with a constant silhouette the smallest
candidate, 4, is selected. -/
theorem claim_C5_selection_rule_witness :
    find_optimal_clusters (fun _ => (0 : ℚ)) ∈ N_CLUSTERS_RANGE
    ∧ find_optimal_clusters (fun _ => (0 : ℚ)) ≤ 4 :=
  ⟨(claim_C5_selection_rule (fun _ => (0 : ℚ))).1,
   (claim_C5_selection_rule (fun _ => (0 : ℚ))).2.2 4 (by decide) rfl⟩

end BlackStars
